import Mathlib

/-!
# Verification of the Quant_Analytics streaming pipeline

A shallow embedding, in Lean 4, of the core of the `Deezekay/Quant_Analytics`
repository: the tick-to-OHLC resampler (`src/analytics/resampler.py`), the
batched tick persistence layer (`src/storage/database.py`), the websocket
ingestion queue (`src/ingestion/binance_websocket.py`), the regression gates
and pairs-analytics pipeline (`src/analytics/regression.py`,
`src/analytics/engine.py`), the rolling z-score
(`src/analytics/statistics.py`), the analytics cache key
(`src/analytics/engine.py`) and the correlation matrix
(`src/analytics/correlation.py`).

Modelling conventions:
* Python `datetime` values are records of (day-index, hour, minute, second,
  microsecond) compared lexicographically, exactly as Python compares
  `datetime` values field by field.  The date part (year/month/day) is
  collapsed into a single `day` index, which is injective on real dates and
  irrelevant to every bucket operation (which only rewrite minute/second/
  microsecond fields).
* Python floats (prices, sizes) are embedded as rationals `ℚ`; the code under
  study only compares, adds, multiplies and divides them.
* Fallible code (a `raise`) is embedded as `Option`/error flags.
* Python's stable `sorted` is embedded as `List.insertionSort` with the
  non-strict timestamp order, which is also a stable sort, so the two agree
  on every input.
-/

/-- A Python `datetime`: `day` is an injective index of the date part
(year/month/day collapsed), the remaining fields are as in Python.
Comparison of Python datetimes is lexicographic on the normalized fields. -/
@[ext]
structure DateTime where
  day : Nat
  hour : Nat
  minute : Nat
  second : Nat
  microsecond : Nat
deriving DecidableEq, Repr

/-- Strict lexicographic order on `DateTime`, as Python compares datetimes. -/
def DateTime.Lt (a b : DateTime) : Prop :=
  a.day < b.day ∨ (a.day = b.day ∧
    (a.hour < b.hour ∨ (a.hour = b.hour ∧
      (a.minute < b.minute ∨ (a.minute = b.minute ∧
        (a.second < b.second ∨ (a.second = b.second ∧
          a.microsecond < b.microsecond)))))))

instance (a b : DateTime) : Decidable (DateTime.Lt a b) := by
  unfold DateTime.Lt; infer_instance

theorem DateTime.Lt.irrefl (a : DateTime) : ¬ DateTime.Lt a a := by
  unfold DateTime.Lt; omega

theorem DateTime.Lt.asymm {a b : DateTime} :
    DateTime.Lt a b → ¬ DateTime.Lt b a := by
  unfold DateTime.Lt; omega

theorem DateTime.Lt.trans {a b c : DateTime} :
    DateTime.Lt a b → DateTime.Lt b c → DateTime.Lt a c := by
  unfold DateTime.Lt; omega

theorem DateTime.eq_of_not_lt_of_not_lt {a b : DateTime}
    (h1 : ¬ DateTime.Lt a b) (h2 : ¬ DateTime.Lt b a) : a = b := by
  unfold DateTime.Lt at h1 h2
  ext <;> omega

/-- `TradeData` (src/ingestion/binance_websocket.py, lines 34-48):
the normalized trade event. -/
structure TradeData where
  symbol : String
  timestamp : DateTime
  price : ℚ
  size : ℚ
deriving DecidableEq, Repr

instance : Inhabited TradeData :=
  ⟨{ symbol := "", timestamp := ⟨0, 0, 0, 0, 0⟩, price := 0, size := 0 }⟩

/-- `OHLCData` (src/analytics/models.py): a finalized OHLC bar. -/
structure OHLCData where
  symbol : String
  interval : String
  timestamp : DateTime
  open_ : ℚ
  high : ℚ
  low : ℚ
  close : ℚ
  volume : ℚ
  trade_count : Nat
deriving DecidableEq, Repr

/-! ## Storage: `DatabaseManager` tick batching (src/storage/database.py)

The durable side (`conn`, the SQLite `ticks` table) is modelled by the list
`written` of successfully committed rows; `tick_buffer` is the in-memory
batch buffer.  A write failure (the `except` branch of `_flush_ticks`,
lines 172-174) is injected through the `fail` flag: the `executemany` is a
single uncommitted transaction, so a failure writes nothing. -/

/-- The mutable state of `DatabaseManager` relevant to tick batching. -/
structure DBState where
  tick_buffer : List TradeData
  written : List TradeData
deriving DecidableEq, Repr

/-- `TICK_BATCH_SIZE` (src/config.py). -/
def TICK_BATCH_SIZE : Nat := 100

/-- `DatabaseManager._flush_ticks` (src/storage/database.py, lines 147-174).
`fail = true` injects a failure of the batched write: the exception is logged
and the buffer is deliberately NOT cleared (line 174). -/
def flush_ticks (s : DBState) (fail : Bool) : DBState :=
  if s.tick_buffer = [] then s
  else if fail then s
  else { tick_buffer := [], written := s.written ++ s.tick_buffer }

/-- `DatabaseManager.insert_tick` (src/storage/database.py, lines 124-145).
`timeout_reached` stands for the wall-clock test
`(now - last_flush) ≥ TICK_BATCH_TIMEOUT`, which is external input to the
model; `fail` is passed through to the flush, if one is triggered. -/
def insert_tick (s : DBState) (t : TradeData) (timeout_reached fail : Bool) :
    DBState :=
  let s' : DBState := { s with tick_buffer := s.tick_buffer ++ [t] }
  if TICK_BATCH_SIZE ≤ s'.tick_buffer.length ∨ timeout_reached = true then
    flush_ticks s' fail
  else s'

/-- **C3.** A failed flush leaves the tick buffer (and the table) unchanged;
a successful flush empties the buffer and appends every buffered row to the
table; hence the successful flush following a failure still writes every
previously buffered row, and a failing flush inside `insert_tick` keeps the
new row buffered.  No buffered trade is silently dropped by a write
failure. -/
theorem flush_ticks_durable (s : DBState) (t : TradeData)
    (timeout_reached : Bool) :
    (flush_ticks s true).tick_buffer = s.tick_buffer ∧
    (flush_ticks s true).written = s.written ∧
    (flush_ticks s false).tick_buffer = [] ∧
    (flush_ticks s false).written = s.written ++ s.tick_buffer ∧
    (flush_ticks (flush_ticks s true) false).written =
      s.written ++ s.tick_buffer ∧
    (insert_tick s t timeout_reached true).tick_buffer =
      s.tick_buffer ++ [t] := by
  have hfail : ∀ s' : DBState, flush_ticks s' true = s' := by
    intro s'; unfold flush_ticks; split <;> simp
  have hok1 : (flush_ticks s false).tick_buffer = [] := by
    unfold flush_ticks
    by_cases h : s.tick_buffer = [] <;> simp [h]
  have hok2 : (flush_ticks s false).written = s.written ++ s.tick_buffer := by
    unfold flush_ticks
    by_cases h : s.tick_buffer = [] <;> simp [h]
  have hins : (insert_tick s t timeout_reached true).tick_buffer =
      s.tick_buffer ++ [t] := by
    unfold insert_tick
    simp only []
    split
    · rw [hfail]
    · rfl
  exact ⟨by rw [hfail], by rw [hfail], hok1, hok2, by rw [hfail]; exact hok2,
    hins⟩

/-! ## Resampler: bucket keys and OHLC bars (src/analytics/resampler.py) -/

/-- `TickResampler.get_interval_bucket` (src/analytics/resampler.py,
lines 54-101).  `none` models the `raise ValueError` branch (line 101). -/
def get_interval_bucket (timestamp : DateTime) (interval : String) :
    Option DateTime :=
  if interval = "1s" then
    some { timestamp with microsecond := 0 }
  else if interval = "1m" then
    some { timestamp with second := 0, microsecond := 0 }
  else if interval = "5m" then
    some { timestamp with minute := timestamp.minute / 5 * 5,
                          second := 0, microsecond := 0 }
  else if interval = "15m" then
    some { timestamp with minute := timestamp.minute / 15 * 15,
                          second := 0, microsecond := 0 }
  else if interval = "1h" then
    some { timestamp with minute := 0, second := 0, microsecond := 0 }
  else
    none

/-- The non-strict timestamp order used by
`sorted(ticks, key=lambda t: t.timestamp)`. -/
def tradeLE (a b : TradeData) : Prop := ¬ DateTime.Lt b.timestamp a.timestamp

/-- The strict timestamp order on trades. -/
def tradeLT (a b : TradeData) : Prop := DateTime.Lt a.timestamp b.timestamp

instance : DecidableRel tradeLE := fun a b => by
  unfold tradeLE; infer_instance

instance : DecidableRel tradeLT := fun a b => by
  unfold tradeLT; infer_instance

instance : IsTotal TradeData tradeLE :=
  ⟨by intro a b; unfold tradeLE DateTime.Lt; omega⟩

instance : IsTrans TradeData tradeLE :=
  ⟨by intro a b c; unfold tradeLE DateTime.Lt; omega⟩

instance : IsAntisymm TradeData tradeLT :=
  ⟨fun _ _ h1 h2 => absurd h1 (DateTime.Lt.asymm h2)⟩

/-- Python's `max` over a non-empty list ( `max(prices)` ); `0` is an
arbitrary value for the impossible empty case. -/
def listMax : List ℚ → ℚ
  | [] => 0
  | x :: xs => xs.foldl max x

/-- Python's `min` over a non-empty list ( `min(prices)` ). -/
def listMin : List ℚ → ℚ
  | [] => 0
  | x :: xs => xs.foldl min x

/-- The `OHLCData(...)` record built at src/analytics/resampler.py,
lines 240-250, from the already sorted tick list. -/
def mkOHLC (sorted_ticks : List TradeData) (symbol interval : String)
    (bucket_start : DateTime) : OHLCData :=
  { symbol := symbol
    interval := interval
    timestamp := bucket_start
    open_ := (sorted_ticks.headD default).price
    high := listMax (sorted_ticks.map (·.price))
    low := listMin (sorted_ticks.map (·.price))
    close := (sorted_ticks.getLastD default).price
    volume := (sorted_ticks.map (·.size)).sum
    trade_count := sorted_ticks.length }

/-- `TickResampler._compute_ohlc` (src/analytics/resampler.py,
lines 204-250).  Python's stable `sorted` by timestamp is embedded as the
(also stable) `insertionSort` with the non-strict timestamp order. -/
def compute_ohlc (ticks : List TradeData) (symbol interval : String)
    (bucket_start : DateTime) : Option OHLCData :=
  if ticks = [] then none
  else some (mkOHLC (ticks.insertionSort tradeLE) symbol interval bucket_start)

theorem foldl_max_mem : ∀ (l : List ℚ) (a : ℚ),
    l.foldl max a = a ∨ l.foldl max a ∈ l
  | [], _ => .inl rfl
  | x :: xs, a => by
    simp only [List.foldl_cons]
    rcases foldl_max_mem xs (max a x) with h | h
    · rcases le_total a x with hax | hax
      · right; rw [h, max_eq_right hax]; exact List.mem_cons_self x xs
      · left; rw [h, max_eq_left hax]
    · right; exact List.mem_cons_of_mem x h

theorem le_foldl_max : ∀ (l : List ℚ) (a : ℚ),
    a ≤ l.foldl max a ∧ ∀ x ∈ l, x ≤ l.foldl max a
  | [], a => ⟨le_refl a, by simp⟩
  | x :: xs, a => by
    have ih := le_foldl_max xs (max a x)
    refine ⟨le_trans (le_max_left a x) ih.1, ?_⟩
    intro y hy
    rcases List.mem_cons.mp hy with rfl | hy
    · exact le_trans (le_max_right a y) ih.1
    · exact ih.2 y hy

theorem foldl_min_mem : ∀ (l : List ℚ) (a : ℚ),
    l.foldl min a = a ∨ l.foldl min a ∈ l
  | [], _ => .inl rfl
  | x :: xs, a => by
    simp only [List.foldl_cons]
    rcases foldl_min_mem xs (min a x) with h | h
    · rcases le_total x a with hax | hax
      · right; rw [h, min_eq_right hax]; exact List.mem_cons_self x xs
      · left; rw [h, min_eq_left hax]
    · right; exact List.mem_cons_of_mem x h

theorem foldl_min_le : ∀ (l : List ℚ) (a : ℚ),
    l.foldl min a ≤ a ∧ ∀ x ∈ l, l.foldl min a ≤ x
  | [], a => ⟨le_refl a, by simp⟩
  | x :: xs, a => by
    have ih := foldl_min_le xs (min a x)
    refine ⟨le_trans ih.1 (min_le_left a x), ?_⟩
    intro y hy
    rcases List.mem_cons.mp hy with rfl | hy
    · exact le_trans ih.1 (min_le_right a y)
    · exact ih.2 y hy

theorem listMax_mem {l : List ℚ} (h : l ≠ []) : listMax l ∈ l := by
  match l with
  | [] => exact absurd rfl h
  | x :: xs =>
    rcases foldl_max_mem xs x with h' | h'
    · rw [listMax, h']; exact List.mem_cons_self x xs
    · rw [listMax]; exact List.mem_cons_of_mem x h'

theorem le_listMax {l : List ℚ} {x : ℚ} (hx : x ∈ l) : x ≤ listMax l := by
  match l with
  | [] => cases hx
  | y :: ys =>
    rcases List.mem_cons.mp hx with rfl | hx
    · exact (le_foldl_max ys x).1
    · exact (le_foldl_max ys y).2 x hx

theorem listMin_mem {l : List ℚ} (h : l ≠ []) : listMin l ∈ l := by
  match l with
  | [] => exact absurd rfl h
  | x :: xs =>
    rcases foldl_min_mem xs x with h' | h'
    · rw [listMin, h']; exact List.mem_cons_self x xs
    · rw [listMin]; exact List.mem_cons_of_mem x h'

theorem listMin_le {l : List ℚ} {x : ℚ} (hx : x ∈ l) : listMin l ≤ x := by
  match l with
  | [] => cases hx
  | y :: ys =>
    rcases List.mem_cons.mp hx with rfl | hx
    · exact (foldl_min_le ys x).1
    · exact (foldl_min_le ys y).2 x hx

theorem tradeLE_refl (a : TradeData) : tradeLE a a :=
  DateTime.Lt.irrefl _

theorem headD_mem {α : Type} {l : List α} (d : α) (h : l ≠ []) :
    l.headD d ∈ l := by
  cases l with
  | nil => exact absurd rfl h
  | cons x xs => simp

theorem getLastD_mem {α : Type} : ∀ (l : List α) (d : α), l ≠ [] →
    l.getLastD d ∈ l
  | [], _, h => absurd rfl h
  | [a], _, _ => by simp
  | a :: b :: tl, d, _ => by
    rw [List.getLastD_cons]
    exact List.mem_cons_of_mem a (getLastD_mem (b :: tl) a (by simp))

/-- The head of a `tradeLE`-sorted list is `tradeLE`-below every element. -/
theorem sorted_head_min {l : List TradeData} (hs : l.Sorted tradeLE) :
    ∀ x ∈ l, tradeLE (l.headD default) x := by
  cases l with
  | nil => intro x hx; cases hx
  | cons a tl =>
    intro x hx
    rcases List.mem_cons.mp hx with rfl | hx
    · exact tradeLE_refl x
    · exact List.rel_of_sorted_cons hs x hx

/-- The last element of a `tradeLE`-sorted list is `tradeLE`-above every
element. -/
theorem sorted_getLast_max : ∀ {l : List TradeData}, l.Sorted tradeLE →
    ∀ x ∈ l, tradeLE x (l.getLastD default)
  | [], _, x, hx => absurd hx (List.not_mem_nil x)
  | [a], _, x, hx => by
    rcases List.mem_cons.mp hx with rfl | hx
    · exact tradeLE_refl x
    · cases hx
  | a :: b :: tl, hs, x, hx => by
    rw [List.sorted_cons] at hs
    rw [List.getLastD_cons]
    rcases List.mem_cons.mp hx with rfl | hx
    · have hmem : (b :: tl).getLastD x ∈ b :: tl := getLastD_mem _ x (by simp)
      exact hs.1 _ hmem
    · have := sorted_getLast_max hs.2 x hx
      rwa [List.getLastD_cons] at this ⊢

/-- In a list with pairwise-distinct timestamps, two members with the same
timestamp are the same trade. -/
theorem eq_of_mem_of_ts_eq :
    ∀ (l : List TradeData),
      l.Pairwise (fun a b => a.timestamp ≠ b.timestamp) →
      ∀ a b : TradeData, a ∈ l → b ∈ l → a.timestamp = b.timestamp → a = b
  | [], _, a, _, ha, _, _ => absurd ha (List.not_mem_nil a)
  | x :: xs, hd, a, b, ha, hb, heq => by
    rw [List.pairwise_cons] at hd
    rcases List.mem_cons.mp ha with rfl | ha' <;>
      rcases List.mem_cons.mp hb with rfl | hb'
    · rfl
    · exact absurd heq (hd.1 b hb')
    · exact absurd heq.symm (hd.1 a ha')
    · exact eq_of_mem_of_ts_eq xs hd.2 a b ha' hb' heq

/-- A `tradeLE`-sorted list with pairwise-distinct timestamps is sorted for
the strict order `tradeLT`. -/
theorem sorted_lt_of_distinct {l : List TradeData} (hs : l.Sorted tradeLE)
    (hd : l.Pairwise (fun a b => a.timestamp ≠ b.timestamp)) :
    l.Sorted tradeLT := by
  have hand :
      l.Pairwise (fun a b => tradeLE a b ∧ a.timestamp ≠ b.timestamp) :=
    List.Pairwise.and hs hd
  refine hand.imp ?_
  intro a b hab
  unfold tradeLT
  by_contra hlt
  exact hab.2 (DateTime.eq_of_not_lt_of_not_lt hlt hab.1)

/-- Two permuted tick lists with pairwise-distinct timestamps have the same
sorted order, hence `_compute_ohlc` treats them identically. -/
theorem insertionSort_eq_of_perm {l₁ l₂ : List TradeData} (hp : l₁.Perm l₂)
    (hd : l₁.Pairwise (fun a b => a.timestamp ≠ b.timestamp)) :
    l₁.insertionSort tradeLE = l₂.insertionSort tradeLE := by
  have hsymm : ∀ {a b : TradeData},
      a.timestamp ≠ b.timestamp → b.timestamp ≠ a.timestamp :=
    fun h => h.symm
  have hd₂ := (hp.pairwise_iff (fun h => hsymm h)).mp hd
  have hd₁' := ((List.perm_insertionSort tradeLE l₁).pairwise_iff
    (fun h => hsymm h)).mpr hd
  have hd₂' := ((List.perm_insertionSort tradeLE l₂).pairwise_iff
    (fun h => hsymm h)).mpr hd₂
  have hs₁ := sorted_lt_of_distinct (List.sorted_insertionSort tradeLE l₁) hd₁'
  have hs₂ := sorted_lt_of_distinct (List.sorted_insertionSort tradeLE l₂) hd₂'
  exact List.eq_of_perm_of_sorted
    ((List.perm_insertionSort tradeLE l₁).trans
      (hp.trans (List.perm_insertionSort tradeLE l₂).symm)) hs₁ hs₂

/-- **C1 (amended).** For a non-empty bucket of trades with pairwise-distinct
timestamps, the finalized bar has: open = price of the chronologically
earliest trade, close = price of the latest, high = max price, low = min
price, volume = sum of sizes, trade_count = number of trades — and the bar is
identical for every arrival order (permutation) of the trades.  (With tied
timestamps the open/close depend on arrival order: see the counterexample.) -/
theorem compute_ohlc_correct (l : List TradeData) (symbol interval : String)
    (bucket_start : DateTime) (hne : l ≠ [])
    (hdist : l.Pairwise (fun a b => a.timestamp ≠ b.timestamp)) :
    ∃ bar : OHLCData,
      compute_ohlc l symbol interval bucket_start = some bar ∧
      (∀ t ∈ l, (∀ u ∈ l, ¬ DateTime.Lt u.timestamp t.timestamp) →
        bar.open_ = t.price) ∧
      (∀ t ∈ l, (∀ u ∈ l, ¬ DateTime.Lt t.timestamp u.timestamp) →
        bar.close = t.price) ∧
      ((∃ t ∈ l, bar.high = t.price) ∧ ∀ t ∈ l, t.price ≤ bar.high) ∧
      ((∃ t ∈ l, bar.low = t.price) ∧ ∀ t ∈ l, bar.low ≤ t.price) ∧
      bar.volume = (l.map TradeData.size).sum ∧
      bar.trade_count = l.length ∧
      (∀ l' : List TradeData, l'.Perm l →
        compute_ohlc l' symbol interval bucket_start = some bar) := by
  have hperm : (l.insertionSort tradeLE).Perm l :=
    List.perm_insertionSort tradeLE l
  have hsne : l.insertionSort tradeLE ≠ [] := by
    intro h
    exact hne ((h ▸ hperm).symm.eq_nil)
  have hsorted : (l.insertionSort tradeLE).Sorted tradeLE :=
    List.sorted_insertionSort tradeLE l
  refine ⟨mkOHLC (l.insertionSort tradeLE) symbol interval bucket_start,
    by rw [compute_ohlc, if_neg hne], ?_, ?_, ?_, ?_, ?_, ?_, ?_⟩
  · -- open = price of the earliest trade
    intro t ht hmin
    have hh : (l.insertionSort tradeLE).headD default ∈ l :=
      hperm.mem_iff.mp (headD_mem default hsne)
    have h1 : ¬ DateTime.Lt ((l.insertionSort tradeLE).headD default).timestamp
        t.timestamp := hmin _ hh
    have h2 : tradeLE ((l.insertionSort tradeLE).headD default) t :=
      sorted_head_min hsorted t (hperm.mem_iff.mpr ht)
    have hts := DateTime.eq_of_not_lt_of_not_lt h1 h2
    have := eq_of_mem_of_ts_eq l hdist _ t hh ht hts
    rw [mkOHLC, this]
  · -- close = price of the latest trade
    intro t ht hmax
    have hh : (l.insertionSort tradeLE).getLastD default ∈ l :=
      hperm.mem_iff.mp (getLastD_mem _ default hsne)
    have h1 : ¬ DateTime.Lt t.timestamp
        ((l.insertionSort tradeLE).getLastD default).timestamp := hmax _ hh
    have h2 : tradeLE t ((l.insertionSort tradeLE).getLastD default) :=
      sorted_getLast_max hsorted t (hperm.mem_iff.mpr ht)
    have hts := DateTime.eq_of_not_lt_of_not_lt h2 h1
    have := eq_of_mem_of_ts_eq l hdist _ t hh ht hts
    rw [mkOHLC, this]
  · -- high = maximum price
    constructor
    · have hmem : listMax ((l.insertionSort tradeLE).map (·.price)) ∈
          (l.insertionSort tradeLE).map (·.price) :=
        listMax_mem (by simpa using hsne)
      obtain ⟨t, ht, hpt⟩ := List.mem_map.mp hmem
      exact ⟨t, hperm.mem_iff.mp ht, by rw [mkOHLC, ← hpt]⟩
    · intro t ht
      have : t.price ∈ (l.insertionSort tradeLE).map (·.price) :=
        List.mem_map_of_mem _ (hperm.mem_iff.mpr ht)
      exact le_listMax this
  · -- low = minimum price
    constructor
    · have hmem : listMin ((l.insertionSort tradeLE).map (·.price)) ∈
          (l.insertionSort tradeLE).map (·.price) :=
        listMin_mem (by simpa using hsne)
      obtain ⟨t, ht, hpt⟩ := List.mem_map.mp hmem
      exact ⟨t, hperm.mem_iff.mp ht, by rw [mkOHLC, ← hpt]⟩
    · intro t ht
      have : t.price ∈ (l.insertionSort tradeLE).map (·.price) :=
        List.mem_map_of_mem _ (hperm.mem_iff.mpr ht)
      exact listMin_le this
  · -- volume = sum of sizes
    rw [mkOHLC]
    exact (hperm.map TradeData.size).sum_eq
  · -- trade_count = number of trades
    rw [mkOHLC]
    exact hperm.length_eq
  · -- the bar is the same for every arrival order
    intro l' hp'
    have hne' : l' ≠ [] := fun h => hne ((h ▸ hp').symm.eq_nil)
    have hd' := (hp'.symm.pairwise_iff
      (fun h : _ ≠ _ => h.symm)).mp hdist
    rw [compute_ohlc, if_neg hne', insertionSort_eq_of_perm hp' hd']

/-- Two trades with the same timestamp but different prices. -/
def tieTradeA : TradeData :=
  { symbol := "BTCUSDT", timestamp := ⟨0, 12, 18, 57, 0⟩, price := 1,
    size := 1 }

/-- Second trade of the tied-timestamp pair. -/
def tieTradeB : TradeData :=
  { symbol := "BTCUSDT", timestamp := ⟨0, 12, 18, 57, 0⟩, price := 2,
    size := 1 }

/-- **C1 counterexample.** The two arrival orders of the same two trades (a
permutation of each other) produce different finalized bars when their
timestamps are tied: the open is the first-arrived price.  So the bar is not
independent of arrival order in general. -/
theorem compute_ohlc_not_perm_invariant :
    [tieTradeA, tieTradeB].Perm [tieTradeB, tieTradeA] ∧
    compute_ohlc [tieTradeA, tieTradeB] "BTCUSDT" "1s" ⟨0, 12, 18, 57, 0⟩ ≠
      compute_ohlc [tieTradeB, tieTradeA] "BTCUSDT" "1s" ⟨0, 12, 18, 57, 0⟩ := by
  constructor
  · exact List.Perm.swap tieTradeB tieTradeA []
  · decide

/-- **C1 witness.** The amended theorem applied to a concrete two-trade
bucket with distinct timestamps. -/
theorem compute_ohlc_correct_witness :
    ∃ bar : OHLCData,
      compute_ohlc
          [⟨"BTCUSDT", ⟨0, 12, 18, 57, 100⟩, 100, 2⟩,
           ⟨"BTCUSDT", ⟨0, 12, 18, 57, 900⟩, 101, 3⟩] "BTCUSDT" "1s"
          ⟨0, 12, 18, 57, 0⟩ = some bar ∧
      (∀ t ∈ [(⟨"BTCUSDT", ⟨0, 12, 18, 57, 100⟩, 100, 2⟩ : TradeData),
              ⟨"BTCUSDT", ⟨0, 12, 18, 57, 900⟩, 101, 3⟩],
        (∀ u ∈ [(⟨"BTCUSDT", ⟨0, 12, 18, 57, 100⟩, 100, 2⟩ : TradeData),
                ⟨"BTCUSDT", ⟨0, 12, 18, 57, 900⟩, 101, 3⟩],
          ¬ DateTime.Lt u.timestamp t.timestamp) → bar.open_ = t.price) ∧
      (∀ t ∈ [(⟨"BTCUSDT", ⟨0, 12, 18, 57, 100⟩, 100, 2⟩ : TradeData),
              ⟨"BTCUSDT", ⟨0, 12, 18, 57, 900⟩, 101, 3⟩],
        (∀ u ∈ [(⟨"BTCUSDT", ⟨0, 12, 18, 57, 100⟩, 100, 2⟩ : TradeData),
                ⟨"BTCUSDT", ⟨0, 12, 18, 57, 900⟩, 101, 3⟩],
          ¬ DateTime.Lt t.timestamp u.timestamp) → bar.close = t.price) ∧
      ((∃ t ∈ [(⟨"BTCUSDT", ⟨0, 12, 18, 57, 100⟩, 100, 2⟩ : TradeData),
               ⟨"BTCUSDT", ⟨0, 12, 18, 57, 900⟩, 101, 3⟩],
          bar.high = t.price) ∧
        ∀ t ∈ [(⟨"BTCUSDT", ⟨0, 12, 18, 57, 100⟩, 100, 2⟩ : TradeData),
               ⟨"BTCUSDT", ⟨0, 12, 18, 57, 900⟩, 101, 3⟩],
          t.price ≤ bar.high) ∧
      ((∃ t ∈ [(⟨"BTCUSDT", ⟨0, 12, 18, 57, 100⟩, 100, 2⟩ : TradeData),
               ⟨"BTCUSDT", ⟨0, 12, 18, 57, 900⟩, 101, 3⟩],
          bar.low = t.price) ∧
        ∀ t ∈ [(⟨"BTCUSDT", ⟨0, 12, 18, 57, 100⟩, 100, 2⟩ : TradeData),
               ⟨"BTCUSDT", ⟨0, 12, 18, 57, 900⟩, 101, 3⟩],
          bar.low ≤ t.price) ∧
      bar.volume =
        ([(⟨"BTCUSDT", ⟨0, 12, 18, 57, 100⟩, 100, 2⟩ : TradeData),
          ⟨"BTCUSDT", ⟨0, 12, 18, 57, 900⟩, 101, 3⟩].map TradeData.size).sum ∧
      bar.trade_count =
        [(⟨"BTCUSDT", ⟨0, 12, 18, 57, 100⟩, 100, 2⟩ : TradeData),
         ⟨"BTCUSDT", ⟨0, 12, 18, 57, 900⟩, 101, 3⟩].length ∧
      (∀ l' : List TradeData,
        l'.Perm [⟨"BTCUSDT", ⟨0, 12, 18, 57, 100⟩, 100, 2⟩,
                 ⟨"BTCUSDT", ⟨0, 12, 18, 57, 900⟩, 101, 3⟩] →
        compute_ohlc l' "BTCUSDT" "1s" ⟨0, 12, 18, 57, 0⟩ = some bar) :=
  compute_ohlc_correct
    [⟨"BTCUSDT", ⟨0, 12, 18, 57, 100⟩, 100, 2⟩,
     ⟨"BTCUSDT", ⟨0, 12, 18, 57, 900⟩, 101, 3⟩] "BTCUSDT" "1s"
    ⟨0, 12, 18, 57, 0⟩ (by decide) (by decide)

/-! ## Resampler: buffers, tick processing and bucket finalization

The nested `buffers` dict `{symbol: {interval: {bucket_start: [ticks]}}}`
(src/analytics/resampler.py, lines 48-52) is represented flat, keyed by the
composite `(symbol, interval, bucket_start)`.  This preserves its semantics:
lookups and updates of the inner dicts are independent across
(symbol, interval), and insertion order is preserved per (symbol, interval)
exactly as for the inner Python dicts.  `inserted` records `db.insert_tick`
calls and `emitted` records `db.insert_ohlc` calls, in order. -/

/-- The composite key of one bucket accumulator. -/
abbrev BKey := String × String × DateTime

/-- The mutable state of `TickResampler` plus the persistence log. -/
structure RState where
  buffers : List (BKey × List TradeData)
  inserted : List TradeData
  emitted : List (String × String × OHLCData)
deriving DecidableEq, Repr

/-- `self.buffers[sym][interval][bucket].append(tick)` on the flat map:
append to the existing entry, or create a new singleton entry (Python
`defaultdict` semantics: a fresh key goes to the end of the dict). -/
def bufAppend : List (BKey × List TradeData) → BKey → TradeData →
    List (BKey × List TradeData)
  | [], k, t => [(k, [t])]
  | e :: rest, k, t =>
    if e.1 = k then (e.1, e.2 ++ [t]) :: rest else e :: bufAppend rest k t

/-- The completion test of `_finalize_completed_buckets` (lines 178-182):
a buffered key is completed iff it belongs to this (symbol, interval) and
its bucket start is strictly below the current bucket. -/
def isCompleted (sym interval : String) (current_bucket : DateTime)
    (k : BKey) : Bool :=
  decide (k.1 = sym) && decide (k.2.1 = interval) &&
    decide (DateTime.Lt k.2.2 current_bucket)

/-- The bars persisted by one finalization pass (the loop at lines 185-202):
one bar per completed non-empty bucket, in buffer order. -/
def stepEmits (sym interval : String) (current_bucket : DateTime)
    (bufs : List (BKey × List TradeData)) :
    List (String × String × OHLCData) :=
  (bufs.filter (fun e => isCompleted sym interval current_bucket e.1)).filterMap
    (fun e => (compute_ohlc e.2 sym interval e.1.2.2).map
      (fun o => (sym, interval, o)))

/-- `TickResampler._finalize_completed_buckets` (src/analytics/resampler.py,
lines 146-202): every buffered bucket of (sym, interval) strictly older than
the current bucket is turned into a bar (empty buckets are skipped, line
191), persisted, and deleted from the buffer. -/
def finalize_completed_buckets (st : RState) (sym interval : String)
    (current_bucket : DateTime) : RState :=
  { st with
    buffers := st.buffers.filter
      (fun e => ! isCompleted sym interval current_bucket e.1)
    emitted := st.emitted ++ stepEmits sym interval current_bucket st.buffers }

/-- `TickResampler._process_tick_for_interval` (src/analytics/resampler.py,
lines 129-144).  `none` propagates the `ValueError` of an unsupported
interval tag. -/
def process_tick_for_interval (t : TradeData) (interval : String)
    (st : RState) : Option RState :=
  match get_interval_bucket t.timestamp interval with
  | none => none
  | some bucket_start =>
    some (finalize_completed_buckets
      { st with buffers := bufAppend st.buffers (t.symbol, interval,
          bucket_start) t }
      t.symbol interval bucket_start)

/-- The `for interval in self.intervals` loop of `process_tick`
(lines 122-124); an exception aborts the remaining intervals and is caught
(and logged) by the surrounding `try`, reported here as the `true` flag. -/
def processIntervals (t : TradeData) : RState → List String → RState × Bool
  | st, [] => (st, false)
  | st, interval :: rest =>
    match process_tick_for_interval t interval st with
    | some st' => processIntervals t st' rest
    | none => (st, true)

/-- `TickResampler.process_tick` (src/analytics/resampler.py, lines 103-127):
persist the tick, then process every configured interval; the Boolean result
records whether the `except` branch (line 126) caught an error. -/
def process_tick (st : RState) (t : TradeData) (intervals : List String) :
    RState × Bool :=
  processIntervals t { st with inserted := st.inserted ++ [t] } intervals

/-- `TickResampler.flush_remaining` (src/analytics/resampler.py, lines
252-270): every buffered bucket is finalized and persisted; note that, unlike
`_finalize_completed_buckets`, nothing is ever deleted from `buffers`.
(The nested loops visit (symbol, interval) groups in first-insertion order;
the flat map visits entries in global insertion order.  Only the relative
order of bars across different (symbol, interval) pairs differs, which no
statement below depends on.) -/
def flush_remaining (st : RState) : RState :=
  { st with
    emitted := st.emitted ++ st.buffers.filterMap
      (fun e => (compute_ohlc e.2 e.1.1 e.1.2.1 e.1.2.2).map
        (fun o => (e.1.1, e.1.2.1, o))) }

/-- The bars appended to the persistence log by one `process_tick` call. -/
def newBars (st : RState) (t : TradeData) (intervals : List String) :
    List (String × String × OHLCData) :=
  ((process_tick st t intervals).1.emitted).drop st.emitted.length

theorem processIntervals_flag_of_unsupported (t : TradeData)
    (interval : String)
    (hnone : ∀ ts : DateTime, get_interval_bucket ts interval = none) :
    ∀ (intervals : List String) (st : RState), interval ∈ intervals →
      (processIntervals t st intervals).2 = true := by
  intro intervals
  induction intervals with
  | nil => intro st h; cases h
  | cons j rest ih =>
    intro st hmem
    rw [processIntervals]
    cases hj : process_tick_for_interval t j st with
    | none => rfl
    | some st' =>
      rcases List.mem_cons.mp hmem with rfl | hmem'
      · rw [process_tick_for_interval, hnone t.timestamp] at hj
        cases hj
      · exact ih st' hmem'

/-- **C5.** For every timestamp and every interval tag outside
`{"1s", "1m", "5m", "15m", "1h"}`, computing the bucket key raises
(`none`, modelling the `ValueError` of line 101) instead of returning a
bucket, and `process_tick` with such a configured interval reports the
caught error (flag `true`, the logged `except` branch of line 126-127)
rather than silently succeeding. -/
theorem unsupported_interval_fails_fast (ts : DateTime) (interval : String)
    (h : interval ∉ (["1s", "1m", "5m", "15m", "1h"] : List String)) :
    get_interval_bucket ts interval = none ∧
    ∀ (st : RState) (t : TradeData) (intervals : List String),
      interval ∈ intervals → (process_tick st t intervals).2 = true := by
  simp only [List.mem_cons, List.not_mem_nil, or_false, not_or] at h
  obtain ⟨h1, h2, h3, h4, h5⟩ := h
  have hnone : ∀ ts' : DateTime, get_interval_bucket ts' interval = none := by
    intro ts'
    rw [get_interval_bucket, if_neg h1, if_neg h2, if_neg h3, if_neg h4,
      if_neg h5]
  refine ⟨hnone ts, ?_⟩
  intro st t intervals hmem
  rw [process_tick]
  exact processIntervals_flag_of_unsupported t interval hnone intervals _ hmem

/-- **C5 witness.** The unsupported tag `"2m"` at a concrete timestamp and a
concrete `process_tick` call. -/
theorem unsupported_interval_fails_fast_witness :
    get_interval_bucket ⟨0, 12, 18, 57, 486000⟩ "2m" = none ∧
    (process_tick ⟨[], [], []⟩ ⟨"BTCUSDT", ⟨0, 12, 18, 57, 0⟩, 100, 1⟩
      ["1s", "2m"]).2 = true := by
  have h := unsupported_interval_fails_fast ⟨0, 12, 18, 57, 486000⟩ "2m"
    (by decide)
  exact ⟨h.1, h.2 ⟨[], [], []⟩ ⟨"BTCUSDT", ⟨0, 12, 18, 57, 0⟩, 100, 1⟩
    ["1s", "2m"] (by decide)⟩

theorem compute_ohlc_eq_some {l : List TradeData} (symbol interval : String)
    (bucket_start : DateTime) (h : l ≠ []) :
    compute_ohlc l symbol interval bucket_start =
      some (mkOHLC (l.insertionSort tradeLE) symbol interval bucket_start) :=
  by rw [compute_ohlc, if_neg h]

theorem mkOHLC_timestamp (sorted_ticks : List TradeData)
    (symbol interval : String) (bucket_start : DateTime) :
    (mkOHLC sorted_ticks symbol interval bucket_start).timestamp =
      bucket_start := rfl

/-- **C4 (amended).** After `flush_remaining`, every still-open bucket has
been finalized into a bar (timestamped at its bucket start and tagged with
its symbol and interval) and persisted — but, contrary to the original
claim, the bucket accumulators are NOT destroyed: `buffers` is left entirely
unchanged (the loop at lines 261-268 never deletes). -/
theorem flush_remaining_persists_all (st : RState)
    (hne : ∀ e ∈ st.buffers, e.2 ≠ []) :
    (∀ e ∈ st.buffers, ∃ bar : OHLCData, bar.timestamp = e.1.2.2 ∧
      (e.1.1, e.1.2.1, bar) ∈ (flush_remaining st).emitted) ∧
    (flush_remaining st).buffers = st.buffers := by
  constructor
  · intro e he
    refine ⟨mkOHLC (e.2.insertionSort tradeLE) e.1.1 e.1.2.1 e.1.2.2,
      mkOHLC_timestamp _ _ _ _, ?_⟩
    rw [flush_remaining]
    refine List.mem_append_right _ (List.mem_filterMap.mpr ⟨e, he, ?_⟩)
    rw [compute_ohlc_eq_some _ _ _ (hne e he), Option.map_some']
  · rfl

/-- A state holding one unfinalized 1-second bucket with a single trade. -/
def pendingState : RState :=
  { buffers := [(("BTCUSDT", "1s", ⟨0, 12, 18, 57, 0⟩),
      [⟨"BTCUSDT", ⟨0, 12, 18, 57, 100⟩, 100, 2⟩])]
    inserted := []
    emitted := [] }

/-- **C4 counterexample.** `flush_remaining` leaves the resampler's buffers
non-empty: the flushed bucket accumulator is not destroyed, so the buffers do
not "hold no remaining bucket afterwards". -/
theorem flush_remaining_keeps_buffers :
    (flush_remaining pendingState).buffers =
      [(("BTCUSDT", "1s", ⟨0, 12, 18, 57, 0⟩),
        [⟨"BTCUSDT", ⟨0, 12, 18, 57, 100⟩, 100, 2⟩])] ∧
    (flush_remaining pendingState).buffers ≠ [] := by
  constructor
  · rfl
  · intro h
    cases h

/-- **C4 witness.** The amended flush theorem at the concrete one-bucket
state. -/
theorem flush_remaining_persists_all_witness :
    (∀ e ∈ pendingState.buffers, ∃ bar : OHLCData,
      bar.timestamp = e.1.2.2 ∧
      (e.1.1, e.1.2.1, bar) ∈ (flush_remaining pendingState).emitted) ∧
    (flush_remaining pendingState).buffers = pendingState.buffers :=
  flush_remaining_persists_all pendingState (by decide)

theorem isCompleted_iff (sym interval : String) (cur : DateTime) (k : BKey) :
    isCompleted sym interval cur k = true ↔
      (k.1 = sym ∧ k.2.1 = interval ∧ DateTime.Lt k.2.2 cur) := by
  simp [isCompleted, and_assoc]

theorem bufAppend_presence :
    ∀ (bufs : List (BKey × List TradeData)) (k : BKey) (t : TradeData)
      (q : BKey),
      (∃ e ∈ bufAppend bufs k t, e.1 = q) ↔
        (q = k ∨ ∃ e ∈ bufs, e.1 = q)
  | [], k, t, q => by
    simp [bufAppend, eq_comm]
  | e :: rest, k, t, q => by
    rw [bufAppend]
    split
    · rename_i h
      subst h
      simp only [List.mem_cons, List.not_mem_nil]
      constructor
      · rintro ⟨e', he', hq⟩
        rcases he' with rfl | he'
        · exact .inl hq.symm
        · exact .inr ⟨e', .inr he', hq⟩
      · rintro (rfl | ⟨e', (rfl | he'), hq⟩)
        · exact ⟨_, .inl rfl, rfl⟩
        · exact ⟨_, .inl rfl, hq⟩
        · exact ⟨e', .inr he', hq⟩
    · rename_i h
      have ih := bufAppend_presence rest k t q
      simp only [List.mem_cons]
      constructor
      · rintro ⟨e', he', hq⟩
        rcases he' with rfl | he'
        · exact .inr ⟨e', .inl rfl, hq⟩
        · rcases ih.mp ⟨e', he', hq⟩ with h' | ⟨e'', he'', hq'⟩
          · exact .inl h'
          · exact .inr ⟨e'', .inr he'', hq'⟩
      · rintro (rfl | ⟨e', (rfl | he'), hq⟩)
        · obtain ⟨e'', he'', hq'⟩ := ih.mpr (.inl rfl)
          exact ⟨e'', .inr he'', hq'⟩
        · exact ⟨e', .inl rfl, hq⟩
        · obtain ⟨e'', he'', hq'⟩ := ih.mpr (.inr ⟨e', he', hq⟩)
          exact ⟨e'', .inr he'', hq'⟩

theorem bufAppend_nonempty :
    ∀ (bufs : List (BKey × List TradeData)) (k : BKey) (t : TradeData),
      (∀ e ∈ bufs, e.2 ≠ []) → ∀ e ∈ bufAppend bufs k t, e.2 ≠ []
  | [], k, t, _, e, he => by
    rw [bufAppend] at he
    rcases List.mem_cons.mp he with rfl | h
    · simp
    · cases h
  | e₀ :: rest, k, t, hne, e, he => by
    rw [bufAppend] at he
    split at he
    · rcases List.mem_cons.mp he with rfl | h
      · simp
      · exact hne _ (List.mem_cons_of_mem _ h)
    · rcases List.mem_cons.mp he with rfl | h
      · exact hne _ (List.mem_cons_self _ _)
      · exact bufAppend_nonempty rest k t
          (fun e' he' => hne e' (List.mem_cons_of_mem _ he')) e h

theorem filter_presence (p : BKey → Bool)
    (l : List (BKey × List TradeData)) (q : BKey) :
    (∃ e ∈ l.filter (fun e => p e.1), e.1 = q) ↔
      (∃ e ∈ l, e.1 = q) ∧ p q = true := by
  constructor
  · rintro ⟨e, he, rfl⟩
    rw [List.mem_filter] at he
    exact ⟨⟨e, he.1, rfl⟩, he.2⟩
  · rintro ⟨⟨e, he, rfl⟩, hp⟩
    exact ⟨e, List.mem_filter.mpr ⟨he, hp⟩, rfl⟩

/-- What one finalization pass emits: exactly one bar per buffered bucket of
this (symbol, interval) strictly below the current bucket, timestamped at
that bucket start. -/
theorem emits_mem_iff (bufs : List (BKey × List TradeData))
    (symJ j : String) (cur : DateTime) (hne : ∀ e ∈ bufs, e.2 ≠ [])
    (sym interval : String) (b : DateTime) :
    (∃ bar : OHLCData, bar.timestamp = b ∧
      (sym, interval, bar) ∈ stepEmits symJ j cur bufs) ↔
    (sym = symJ ∧ interval = j ∧ (∃ e ∈ bufs, e.1 = (symJ, j, b)) ∧
      DateTime.Lt b cur) := by
  unfold stepEmits
  constructor
  · rintro ⟨bar, hts, hmem⟩
    obtain ⟨⟨⟨s0, i0, b0⟩, l0⟩, he, hfe⟩ := List.mem_filterMap.mp hmem
    rw [List.mem_filter] at he
    have hl0 : l0 ≠ [] := hne _ he.1
    rw [compute_ohlc_eq_some _ _ _ hl0, Option.map_some'] at hfe
    have hdone := (isCompleted_iff symJ j cur (s0, i0, b0)).mp he.2
    simp only [Prod.mk.injEq] at hfe hdone
    obtain ⟨rfl, rfl, rfl⟩ := hfe
    obtain ⟨rfl, rfl, hlt⟩ := hdone
    refine ⟨rfl, rfl, ⟨((s0, i0, b0), l0), he.1, ?_⟩, ?_⟩
    · simp [← hts, mkOHLC_timestamp]
    · rw [← hts]
      exact hlt
  · rintro ⟨rfl, rfl, ⟨⟨⟨s0, i0, b0⟩, l0⟩, he, hkey⟩, hlt⟩
    simp only [Prod.mk.injEq] at hkey
    obtain ⟨rfl, rfl, rfl⟩ := hkey
    have hl0 : l0 ≠ [] := hne _ he
    refine ⟨mkOHLC (l0.insertionSort tradeLE) s0 i0 b0,
      mkOHLC_timestamp _ _ _ _, List.mem_filterMap.mpr
        ⟨((s0, i0, b0), l0), List.mem_filter.mpr ⟨he, ?_⟩, ?_⟩⟩
    · exact (isCompleted_iff s0 i0 cur (s0, i0, b0)).mpr ⟨rfl, rfl, hlt⟩
    · rw [compute_ohlc_eq_some _ _ _ hl0, Option.map_some']

theorem processIntervals_emitted_prefix (t : TradeData) :
    ∀ (intervals : List String) (st : RState),
      ∃ l, (processIntervals t st intervals).1.emitted = st.emitted ++ l
  | [], st => ⟨[], (List.append_nil _).symm⟩
  | j :: rest, st => by
    rw [processIntervals]
    cases hj : process_tick_for_interval t j st with
    | none => exact ⟨[], (List.append_nil _).symm⟩
    | some st' =>
      obtain ⟨l, hl⟩ := processIntervals_emitted_prefix t rest st'
      rw [process_tick_for_interval] at hj
      cases hg : get_interval_bucket t.timestamp j with
      | none => rw [hg] at hj; cases hj
      | some cur =>
        rw [hg] at hj
        injection hj with hj
        subst hj
        refine ⟨stepEmits t.symbol j cur
          (bufAppend st.buffers (t.symbol, j, cur) t) ++ l, ?_⟩
        rw [hl]
        simp [finalize_completed_buckets, List.append_assoc]

/-- The state after `_process_tick_for_interval` handles one supported
interval: the tick is buffered into its bucket, then strictly older buckets
of this (symbol, interval) are finalized. -/
def stepState (t : TradeData) (j : String) (curj : DateTime) (st : RState) :
    RState :=
  finalize_completed_buckets
    { st with buffers := bufAppend st.buffers (t.symbol, j, curj) t }
    t.symbol j curj

theorem stepState_buffers (t : TradeData) (j : String) (curj : DateTime)
    (st : RState) :
    (stepState t j curj st).buffers =
      (bufAppend st.buffers (t.symbol, j, curj) t).filter
        (fun e => ! isCompleted t.symbol j curj e.1) := rfl

theorem stepState_emitted (t : TradeData) (j : String) (curj : DateTime)
    (st : RState) :
    (stepState t j curj st).emitted = st.emitted ++
      stepEmits t.symbol j curj (bufAppend st.buffers (t.symbol, j, curj) t) :=
  rfl

theorem process_tick_for_interval_eq (t : TradeData) (j : String)
    (curj : DateTime) (st : RState)
    (hgj : get_interval_bucket t.timestamp j = some curj) :
    process_tick_for_interval t j st = some (stepState t j curj st) := by
  rw [process_tick_for_interval, hgj, stepState]


/-- Core induction for C2: along the interval loop of one `process_tick`
call, a bar for (sym, interval) with bucket start `b` is freshly persisted
iff (sym, interval) is one of the tick's own (symbol, configured-interval)
pairs, a bucket with start `b` was buffered, and the tick's bucket key for
that interval is strictly greater than `b`. -/
theorem processIntervals_newBars_iff (t : TradeData) :
    ∀ (intervals : List String) (st : RState),
      (∀ e ∈ st.buffers, e.2 ≠ []) →
      (∀ j ∈ intervals, (get_interval_bucket t.timestamp j).isSome = true) →
      ∀ (sym interval : String) (b : DateTime),
      ((∃ bar : OHLCData, bar.timestamp = b ∧ (sym, interval, bar) ∈
          ((processIntervals t st intervals).1.emitted).drop
            st.emitted.length) ↔
        (sym = t.symbol ∧ interval ∈ intervals ∧
          (∃ e ∈ st.buffers, e.1 = (sym, interval, b)) ∧
          ∃ cur, get_interval_bucket t.timestamp interval = some cur ∧
            DateTime.Lt b cur))
  | [], st, hne, hsup, sym, interval, b => by
    simp [processIntervals, List.drop_length]
  | j :: rest, st, hne, hsup, sym, interval, b => by
    obtain ⟨curj, hgj⟩ := Option.isSome_iff_exists.mp
      (hsup j (List.mem_cons_self j rest))
    have hne' : ∀ e ∈ bufAppend st.buffers (t.symbol, j, curj) t, e.2 ≠ [] :=
      bufAppend_nonempty st.buffers (t.symbol, j, curj) t hne
    have hne₁ : ∀ e ∈ (stepState t j curj st).buffers, e.2 ≠ [] := by
      intro e he
      rw [stepState_buffers] at he
      exact hne' e (List.mem_filter.mp he).1
    have hsup' : ∀ i ∈ rest,
        (get_interval_bucket t.timestamp i).isSome = true :=
      fun i hi => hsup i (List.mem_cons_of_mem j hi)
    obtain ⟨R, hR⟩ := processIntervals_emitted_prefix t rest
      (stepState t j curj st)
    have hunfold : processIntervals t st (j :: rest) =
        processIntervals t (stepState t j curj st) rest := by
      rw [processIntervals, process_tick_for_interval_eq t j curj st hgj]
    have hdropE : ((processIntervals t st (j :: rest)).1.emitted).drop
        st.emitted.length =
        stepEmits t.symbol j curj (bufAppend st.buffers (t.symbol, j, curj) t)
          ++ R := by
      rw [hunfold, hR, stepState_emitted, List.append_assoc, List.drop_left]
    have hdropR : ((processIntervals t (stepState t j curj st)
        rest).1.emitted).drop (stepState t j curj st).emitted.length = R := by
      rw [hR, List.drop_left]
    have IH := processIntervals_newBars_iff t rest (stepState t j curj st)
      hne₁ hsup' sym interval b
    rw [hdropR] at IH
    rw [hdropE]
    constructor
    · rintro ⟨bar, hts, hm⟩
      rcases List.mem_append.mp hm with hm | hm
      · obtain ⟨rfl, rfl, hP, hlt⟩ :=
          (emits_mem_iff (bufAppend st.buffers (t.symbol, j, curj) t)
            t.symbol j curj hne' sym interval b).mp ⟨bar, hts, hm⟩
        rcases (bufAppend_presence st.buffers (t.symbol, interval, curj) t
            (t.symbol, interval, b)).mp hP with hkey | hPst
        · exfalso
          simp only [Prod.mk.injEq] at hkey
          obtain ⟨-, -, rfl⟩ := hkey
          exact DateTime.Lt.irrefl _ hlt
        · exact ⟨rfl, List.mem_cons_self _ rest, hPst, curj, hgj, hlt⟩
      · obtain ⟨hsym, hrest, hP₁, hcur⟩ := IH.mp ⟨bar, hts, hm⟩
        rw [stepState_buffers] at hP₁
        obtain ⟨hP', hnotdone⟩ :=
          (filter_presence (fun k => ! isCompleted t.symbol j curj k)
            (bufAppend st.buffers (t.symbol, j, curj) t)
            (sym, interval, b)).mp hP₁
        rcases (bufAppend_presence st.buffers (t.symbol, j, curj) t
            (sym, interval, b)).mp hP' with hkey | hPst
        · exfalso
          obtain ⟨cur, hgi, hlt⟩ := hcur
          simp only [Prod.mk.injEq] at hkey
          obtain ⟨-, rfl, rfl⟩ := hkey
          rw [hgj] at hgi
          injection hgi with hcc
          rw [hcc] at hlt
          exact DateTime.Lt.irrefl _ hlt
        · exact ⟨hsym, List.mem_cons_of_mem j hrest, hPst, hcur⟩
    · rintro ⟨rfl, hmem, hPst, cur, hgi, hlt⟩
      by_cases hij : interval = j
      · have hcurj : cur = curj := by
          rw [hij] at hgi
          rw [hgi] at hgj
          injection hgj
        rw [hij] at hPst
        rw [hcurj] at hlt
        obtain ⟨bar, hts, hm⟩ :=
          (emits_mem_iff (bufAppend st.buffers (t.symbol, j, curj) t)
            t.symbol j curj hne' t.symbol interval b).mpr
            ⟨rfl, hij,
              (bufAppend_presence st.buffers (t.symbol, j, curj) t
                (t.symbol, j, b)).mpr (.inr hPst), hlt⟩
        exact ⟨bar, hts, List.mem_append.mpr (.inl hm)⟩
      · have hrest : interval ∈ rest := by
          rcases List.mem_cons.mp hmem with h | h
          · exact absurd h hij
          · exact h
        have hP₁ : ∃ e ∈ (stepState t j curj st).buffers,
            e.1 = (t.symbol, interval, b) := by
          rw [stepState_buffers]
          refine (filter_presence (fun k => ! isCompleted t.symbol j curj k)
            (bufAppend st.buffers (t.symbol, j, curj) t)
            (t.symbol, interval, b)).mpr
            ⟨(bufAppend_presence st.buffers (t.symbol, j, curj) t
              (t.symbol, interval, b)).mpr (.inr hPst), ?_⟩
          simp [isCompleted, hij]
        obtain ⟨bar, hts, hm⟩ := IH.mpr ⟨rfl, hrest, hP₁, cur, hgi, hlt⟩
        exact ⟨bar, hts, List.mem_append.mpr (.inr hm)⟩

/-- **C2.** For every prior state whose buffered buckets are non-empty (the
invariant the resampler maintains, since buckets are only created by
buffering a tick) and every arriving trade whose configured intervals are all
supported: a bar for bucket `b` of (sym, interval) is persisted by this
`process_tick` call exactly when the arriving trade is for that symbol, the
interval is configured, a bucket with start `b` was buffered, and the
arriving trade's bucket key for that (symbol, interval) is strictly greater
than `b`.  In particular a bucket is never finalized by a trade that does not
bear a strictly later bucket key (flushing is separate: `flush_remaining`). -/
theorem bucket_finalized_iff_later_key (st : RState) (t : TradeData)
    (intervals : List String)
    (hne : ∀ e ∈ st.buffers, e.2 ≠ [])
    (hsup : ∀ j ∈ intervals, (get_interval_bucket t.timestamp j).isSome = true)
    (sym interval : String) (b : DateTime) :
    (∃ bar : OHLCData, bar.timestamp = b ∧
      (sym, interval, bar) ∈ newBars st t intervals) ↔
    (sym = t.symbol ∧ interval ∈ intervals ∧
      (∃ e ∈ st.buffers, e.1 = (sym, interval, b)) ∧
      ∃ cur, get_interval_bucket t.timestamp interval = some cur ∧
        DateTime.Lt b cur) :=
  processIntervals_newBars_iff t intervals
    { st with inserted := st.inserted ++ [t] } hne hsup sym interval b

/-- **C2 witness.** The spec's own scenario, one step before the end: a
buffered 12:18:57 1-second bucket, and a trade arriving at 12:18:58.234
whose 1-second bucket key 12:18:58 is strictly greater. -/
theorem bucket_finalized_iff_later_key_witness :
    (∃ bar : OHLCData, bar.timestamp = ⟨0, 12, 18, 57, 0⟩ ∧
      ("BTCUSDT", "1s", bar) ∈ newBars pendingState
        ⟨"BTCUSDT", ⟨0, 12, 18, 58, 234000⟩, 102, 1⟩ ["1s"]) ↔
    ("BTCUSDT" = (⟨"BTCUSDT", ⟨0, 12, 18, 58, 234000⟩, 102, 1⟩ :
        TradeData).symbol ∧
      "1s" ∈ ["1s"] ∧
      (∃ e ∈ pendingState.buffers,
        e.1 = ("BTCUSDT", "1s", ⟨0, 12, 18, 57, 0⟩)) ∧
      ∃ cur, get_interval_bucket
        (⟨"BTCUSDT", ⟨0, 12, 18, 58, 234000⟩, 102, 1⟩ :
          TradeData).timestamp "1s" = some cur ∧
        DateTime.Lt ⟨0, 12, 18, 57, 0⟩ cur) :=
  bucket_finalized_iff_later_key pendingState
    ⟨"BTCUSDT", ⟨0, 12, 18, 58, 234000⟩, 102, 1⟩ ["1s"] (by decide)
    (by decide) "BTCUSDT" "1s" ⟨0, 12, 18, 57, 0⟩

/-! ## Statistics: rolling z-score (src/analytics/statistics.py)

pandas' `rolling(window).mean()` / `.std(ddof=1)` are the NaN sentinel at
exactly the positions `i < window - 1` (min_periods defaults to the window),
and the elementwise division `(series - mean) / std` propagates those NaNs.
NaN is modelled as `none`.  At defined positions the pair
(value - window mean, window sample variance) is returned: the float z-score
is their combination `(value - mean) / sqrt(variance)`, whose square root
leaves ℚ; no claim inspects that value. -/

/-- The window of values feeding the rolling statistic at index `i`:
the last `window` values ending at `i`. -/
def rollingWindow (values : List ℚ) (window i : Nat) : List ℚ :=
  (values.take (i + 1)).drop (i + 1 - window)

/-- `StatisticsCalculator.compute_zscore` (src/analytics/statistics.py,
lines 176-238). -/
def compute_zscore (values : List ℚ) (window : Nat) :
    List (Option (ℚ × ℚ)) :=
  if values.length < window then List.replicate values.length none
  else (List.range values.length).map (fun i =>
    if i + 1 < window then none
    else
      let w := rollingWindow values window i
      let m := w.sum / (window : ℚ)
      some (values.getD i 0 - m,
        (w.map (fun x => (x - m) ^ 2)).sum / ((window : ℚ) - 1)))

/-- **C7.** For every input list and window W ≥ 1, the z-score output has
exactly the input's length; and whenever the input holds at least W values,
the first W−1 entries are the NaN sentinel (present, never omitted). -/
theorem compute_zscore_length_and_nan (values : List ℚ) (window : Nat)
    (hw : 1 ≤ window) :
    (compute_zscore values window).length = values.length ∧
    (window ≤ values.length → ∀ i < window - 1,
      (compute_zscore values window)[i]? = some none) := by
  constructor
  · rw [compute_zscore]
    split
    · simp
    · simp
  · intro hlen i hi
    rw [compute_zscore, if_neg (by omega)]
    have hi' : i < values.length := by omega
    rw [List.getElem?_map, List.getElem?_range hi', Option.map_some',
      if_pos (by omega)]

/-- **C7 witness.** Window 2 over three values. -/
theorem compute_zscore_length_and_nan_witness :
    (compute_zscore [1, 2, 3] 2).length = ([1, 2, 3] : List ℚ).length ∧
    (2 ≤ ([1, 2, 3] : List ℚ).length → ∀ i < 2 - 1,
      (compute_zscore [1, 2, 3] 2)[i]? = some none) :=
  compute_zscore_length_and_nan [1, 2, 3] 2 (by decide)

/-! ## Ingestion: bounded per-symbol queue (src/ingestion/binance_websocket.py) -/

/-- The per-symbol queue and tick counter of `BinanceWebSocketClient`. -/
structure WSState where
  queue : List TradeData
  tick_count : Nat
deriving DecidableEq, Repr

/-- The enqueue step of `_handle_message` (src/ingestion/binance_websocket.py,
lines 178-183): `put_nowait` raises `QueueFull` when the queue already holds
`capacity` items; on success the per-symbol counter is incremented, on
`QueueFull` the trade is dropped (warning logged) and the counter is
untouched.  The preceding JSON parsing and validation (lines 163-176)
produce the normalized trade this step receives; `capacity` is
`BUFFER_SIZE` (1000 in src/config.py). -/
def handle_trade (capacity : Nat) (s : WSState) (t : TradeData) : WSState :=
  if s.queue.length < capacity then
    { queue := s.queue ++ [t], tick_count := s.tick_count + 1 }
  else s

/-- **C8.** A trade arriving at a full queue is dropped with queue and
counter unchanged; a trade arriving at a non-full queue is appended and the
counter incremented — the counter counts exactly the successfully enqueued
trades.  With capacity 2 and three trades enqueued with no consumer, exactly
the first 2 are retained and the counter reads 2. -/
theorem queue_drop_semantics :
    (∀ (capacity : Nat) (s : WSState) (t : TradeData),
      capacity ≤ s.queue.length → handle_trade capacity s t = s) ∧
    (∀ (capacity : Nat) (s : WSState) (t : TradeData),
      s.queue.length < capacity →
        (handle_trade capacity s t).queue = s.queue ++ [t] ∧
        (handle_trade capacity s t).tick_count = s.tick_count + 1) ∧
    (∀ t1 t2 t3 : TradeData,
      handle_trade 2 (handle_trade 2 (handle_trade 2 ⟨[], 0⟩ t1) t2) t3 =
        ⟨[t1, t2], 2⟩) := by
  refine ⟨?_, ?_, ?_⟩
  · intro capacity s t h
    rw [handle_trade, if_neg (by omega)]
  · intro capacity s t h
    rw [handle_trade, if_pos h]
    exact ⟨rfl, rfl⟩
  · intro t1 t2 t3
    simp [handle_trade]

/-- **C8 witness.** The drop case at a concrete full queue. -/
theorem queue_drop_semantics_witness :
    handle_trade 2 ⟨[tieTradeA, tieTradeB], 2⟩ tieTradeA =
      ⟨[tieTradeA, tieTradeB], 2⟩ :=
  queue_drop_semantics.1 2 ⟨[tieTradeA, tieTradeB], 2⟩ tieTradeA (by decide)

/-! ## Regression gates and the pairs-analytics pipeline
(src/analytics/regression.py, src/analytics/engine.py)

`compute_ols_hedge_ratio` loads two bar series, aligns them on common
timestamps, takes log returns and fits ordinary least squares via
`scipy.stats.linregress`.  The data loading, alignment and the fit itself
are oracle inputs of this model: the cleaned return series and the fit
results (slope, intercept, r_value, std_err) are parameters, and the gate
logic applied to them (regression.py lines 163-216) is embedded verbatim,
with floats as ℚ. -/

/-- `RegressionResult` (src/analytics/models.py). -/
structure RegressionResult where
  hedge_ratio : ℚ
  intercept : ℚ
  r_squared : ℚ
  std_error : ℚ
  residuals : List ℚ
deriving DecidableEq, Repr

/-- The three sanity gates and result construction of
`compute_ols_hedge_ratio` (src/analytics/regression.py, lines 163-216):
suppress (return `None`) when |β| > 3.0, when R² = r_value² < 0.3, or when
the standard error of β exceeds |β|; otherwise build the result with the
residuals r_Y − (α + β·r_X). -/
def compute_ols_hedge_ratio_gates (returns_x_clean returns_y_clean : List ℚ)
    (slope intercept r_value std_err : ℚ) : Option RegressionResult :=
  if 3 < |slope| then none
  else if r_value ^ 2 < 3 / 10 then none
  else if |slope| < std_err then none
  else some { hedge_ratio := slope
              intercept := intercept
              r_squared := r_value ^ 2
              std_error := std_err
              residuals := (returns_x_clean.zip returns_y_clean).map
                (fun p => p.2 - (intercept + slope * p.1)) }

/-- The combined pairs bundle built by `get_pairs_analytics`
(src/analytics/engine.py, lines 234-241); the best-effort ADF and
correlation entries (steps 4-5) are independently nullable and cannot make
the bundle itself absent, so they are omitted here. -/
structure PairsBundle where
  regression : RegressionResult
  spread : List ℚ
  z_score : List (Option (ℚ × ℚ))
deriving Repr

/-- Steps 1-3 of `AnalyticsEngine.get_pairs_analytics`
(src/analytics/engine.py, lines 199-241): return "no result" if the
regression was suppressed, or if the spread (computed from the accepted
hedge ratio, taken as input here) holds fewer than 20 points; otherwise
bundle the pieces, with the z-score of the spread at window 20.  The TTL
cache wrapper is orthogonal to this claim and omitted. -/
def get_pairs_analytics_pipeline (reg : Option RegressionResult)
    (spread : List ℚ) : Option PairsBundle :=
  match reg with
  | none => none
  | some r =>
    if spread.length < 20 then none
    else some { regression := r, spread := spread,
                z_score := compute_zscore spread 20 }

/-- **C6.** Whenever any of the three gates fails — |β| > 3.0, or
R² = r_value² < 0.3, or the standard error exceeds |β| — the regression
returns "no result"; and when the fitted |β| = 5, the whole pairs-analytics
pipeline returns "no result" (gate 1). -/
theorem regression_gates_suppress (returns_x returns_y : List ℚ)
    (slope intercept r_value std_err : ℚ) (spread : List ℚ) :
    (3 < |slope| ∨ r_value ^ 2 < 3 / 10 ∨ |slope| < std_err →
      compute_ols_hedge_ratio_gates returns_x returns_y slope intercept
        r_value std_err = none) ∧
    (|slope| = 5 →
      get_pairs_analytics_pipeline
        (compute_ols_hedge_ratio_gates returns_x returns_y slope intercept
          r_value std_err) spread = none) := by
  have hmain : 3 < |slope| ∨ r_value ^ 2 < 3 / 10 ∨ |slope| < std_err →
      compute_ols_hedge_ratio_gates returns_x returns_y slope intercept
        r_value std_err = none := by
    intro h
    rw [compute_ols_hedge_ratio_gates]
    by_cases h1 : 3 < |slope|
    · rw [if_pos h1]
    · rw [if_neg h1]
      by_cases h2 : r_value ^ 2 < 3 / 10
      · rw [if_pos h2]
      · rw [if_neg h2]
        have h3 : |slope| < std_err := by tauto
        rw [if_pos h3]
  refine ⟨hmain, ?_⟩
  intro h5
  rw [hmain (.inl (by rw [h5]; norm_num))]
  rfl

/-- **C6 witness.** A fit with β = 5 is suppressed and the pipeline yields
no result. -/
theorem regression_gates_suppress_witness :
    compute_ols_hedge_ratio_gates [] [] 5 0 1 1 = none ∧
    get_pairs_analytics_pipeline
      (compute_ols_hedge_ratio_gates [] [] 5 0 1 1) [] = none := by
  have h := regression_gates_suppress [] [] 5 0 1 1 []
  exact ⟨h.1 (.inl (by norm_num)), h.2 (by norm_num)⟩

/-! ## Analytics cache key (src/analytics/engine.py)

`_get_cache_key` builds the formatted string
`f"{category}:{'_'.join(str(arg) for arg in args)}"`.  Python strings are
modelled as character lists. -/

/-- Python's `'_'.join(args)`. -/
def joinUnderscore : List (List Char) → List Char
  | [] => []
  | [a] => a
  | a :: b :: rest => a ++ '_' :: joinUnderscore (b :: rest)

/-- `AnalyticsEngine._get_cache_key` (src/analytics/engine.py,
lines 64-66). -/
def get_cache_key (category : List Char) (args : List (List Char)) :
    List Char :=
  category ++ ':' :: joinUnderscore args

/-- **C9 counterexample.** The single argument `"A_B"` and the two arguments
`"A", "B"` are different queries but produce the same cache key: the key is
a delimiter-joined string, not a structured tuple, so entries of different
queries can collide. -/
theorem cache_key_collision :
    get_cache_key "pairs_analytics".toList ["A_B".toList] =
      get_cache_key "pairs_analytics".toList ["A".toList, "B".toList] ∧
    ["A_B".toList] ≠ ["A".toList, "B".toList] := by
  constructor
  · rfl
  · decide

theorem append_sep_inj {sep : Char} :
    ∀ (a b u v : List Char), sep ∉ a → sep ∉ b →
      a ++ sep :: u = b ++ sep :: v → a = b ∧ u = v
  | [], [], _, _, _, _, h => by
    rw [List.nil_append, List.nil_append] at h
    injection h with _ h
    exact ⟨rfl, h⟩
  | [], c :: b, u, v, _, hb, h => by
    rw [List.nil_append, List.cons_append] at h
    injection h with h1 _
    exact absurd (h1 ▸ List.mem_cons_self c b) hb
  | c :: a, [], u, v, ha, _, h => by
    rw [List.nil_append, List.cons_append] at h
    injection h with h1 _
    exact absurd (h1.symm ▸ List.mem_cons_self c a) ha
  | c :: a, d :: b, u, v, ha, hb, h => by
    rw [List.cons_append, List.cons_append] at h
    injection h with h1 h2
    obtain ⟨hab, huv⟩ := append_sep_inj a b u v
      (fun hm => ha (List.mem_cons_of_mem c hm))
      (fun hm => hb (List.mem_cons_of_mem d hm)) h2
    exact ⟨by rw [h1, hab], huv⟩

theorem joinUnderscore_inj :
    ∀ (xs ys : List (List Char)),
      (∀ x ∈ xs, x ≠ [] ∧ '_' ∉ x) → (∀ y ∈ ys, y ≠ [] ∧ '_' ∉ y) →
      joinUnderscore xs = joinUnderscore ys → xs = ys
  | [], [], _, _, _ => rfl
  | [], y :: ys, _, hy, h => by
    exfalso
    cases ys with
    | nil =>
      exact (hy y (List.mem_cons_self y [])).1
        (by rw [joinUnderscore, joinUnderscore] at h; exact h.symm)
    | cons z t =>
      rw [joinUnderscore, joinUnderscore] at h
      rcases List.append_eq_nil.mp h.symm with ⟨-, h2⟩
      cases h2
  | x :: xs, [], hx, _, h => by
    exfalso
    cases xs with
    | nil =>
      exact (hx x (List.mem_cons_self x [])).1
        (by rw [joinUnderscore, joinUnderscore] at h; exact h)
    | cons w s =>
      rw [joinUnderscore, joinUnderscore] at h
      rcases List.append_eq_nil.mp h with ⟨-, h2⟩
      cases h2
  | x :: xs, y :: ys, hx, hy, h => by
    cases xs with
    | nil =>
      cases ys with
      | nil =>
        rw [joinUnderscore, joinUnderscore] at h
        rw [h]
      | cons z t =>
        exfalso
        rw [joinUnderscore, joinUnderscore] at h
        refine (hx x (List.mem_cons_self x [])).2 ?_
        rw [h]
        exact List.mem_append.mpr (.inr (List.mem_cons_self '_' _))
    | cons w s =>
      cases ys with
      | nil =>
        exfalso
        rw [joinUnderscore, joinUnderscore] at h
        refine (hy y (List.mem_cons_self y [])).2 ?_
        rw [← h]
        exact List.mem_append.mpr (.inr (List.mem_cons_self '_' _))
      | cons z t =>
        rw [joinUnderscore, joinUnderscore] at h
        obtain ⟨h1, h2⟩ := append_sep_inj x y _ _
          (hx x (List.mem_cons_self x _)).2 (hy y (List.mem_cons_self y _)).2 h
        have h3 := joinUnderscore_inj (w :: s) (z :: t)
          (fun a ha => hx a (List.mem_cons_of_mem x ha))
          (fun a ha => hy a (List.mem_cons_of_mem y ha)) h2
        rw [h1, h3]

/-- **C9 (amended).** The cache key is the concatenated string
"category:arg1_arg2…".  Distinct (category, argument tuple) pairs map to
distinct keys provided the category contains no ':' and every argument
value is non-empty and contains no '_' — but an argument containing the
join delimiter can collide with a split variant of itself (see the
counterexample), so the key does not behave as a structured tuple in
general. -/
theorem cache_key_structured (c1 c2 : List Char) (a1 a2 : List (List Char))
    (hc1 : ':' ∉ c1) (hc2 : ':' ∉ c2)
    (ha1 : ∀ x ∈ a1, x ≠ [] ∧ '_' ∉ x) (ha2 : ∀ x ∈ a2, x ≠ [] ∧ '_' ∉ x)
    (h : get_cache_key c1 a1 = get_cache_key c2 a2) :
    c1 = c2 ∧ a1 = a2 := by
  obtain ⟨hcat, hjoin⟩ := append_sep_inj c1 c2 _ _ hc1 hc2 h
  exact ⟨hcat, joinUnderscore_inj a1 a2 ha1 ha2 hjoin⟩

/-- **C9 witness.** The amended injectivity applied at the repository's own
key shape `pairs_analytics:BTCUSDT_ETHUSDT_1m`. -/
theorem cache_key_structured_witness :
    "pairs_analytics".toList = "pairs_analytics".toList ∧
    (["BTCUSDT".toList, "ETHUSDT".toList, "1m".toList] :
      List (List Char)) =
      ["BTCUSDT".toList, "ETHUSDT".toList, "1m".toList] :=
  cache_key_structured "pairs_analytics".toList "pairs_analytics".toList
    ["BTCUSDT".toList, "ETHUSDT".toList, "1m".toList]
    ["BTCUSDT".toList, "ETHUSDT".toList, "1m".toList]
    (by decide) (by decide) (by decide) (by decide) (by decide)

/-! ## Correlation matrix (src/analytics/correlation.py)

`compute_correlation_matrix` (lines 161-238) loads bars per symbol, drops
symbols with fewer than `window` bars, builds one DataFrame column per
remaining symbol and returns `df.corr()` — the Pearson matrix of exactly
those columns.  The float Pearson arithmetic lies outside the rational
model; what is embedded is everything that determines it: which
(timestamp, close) rows feed each column.

Two source details matter.  The dict comprehension
`{bar.timestamp: bar.close for bar in bars}` keeps first-insertion key order
and lets a later duplicate overwrite the value in place (`dictUpsert`).
And lines 206-215 compute `common_timestamps = sorted(all_timestamps)` from
the UNION of the symbols' timestamps (built with `update`, under the comment
"Find common timestamps"), then filter each symbol's dict by
`ts in price_data[symbol]` — a no-op.  Each column is therefore the symbol's
closes at its OWN last `window` timestamps (lines 219-222), not at the
intersection of all symbols' timestamps. -/

/-- Non-strict order on dict entries by timestamp, for
`sorted(price_data[symbol].keys())`. -/
def entryLE (a b : DateTime × ℚ) : Prop := ¬ DateTime.Lt b.1 a.1

instance : DecidableRel entryLE := fun a b => by
  unfold entryLE; infer_instance

/-- One Python dict assignment `d[ts] = c`: overwrite in place, or append a
fresh key. -/
def dictUpsert : List (DateTime × ℚ) → DateTime → ℚ → List (DateTime × ℚ)
  | [], ts, c => [(ts, c)]
  | e :: rest, ts, c =>
    if e.1 = ts then (ts, c) :: rest else e :: dictUpsert rest ts c

/-- The dict comprehension `{bar.timestamp: bar.close for bar in bars}`. -/
def priceDict (bars : List (DateTime × ℚ)) : List (DateTime × ℚ) :=
  bars.foldl (fun d b => dictUpsert d b.1 b.2) []

/-- The DataFrame column built for one symbol (correlation.py, lines
219-222): `sorted(price_data[symbol].keys())[-window:]`, with each
timestamp's close. -/
def symbolColumn (bars : List (DateTime × ℚ)) (window : Nat) :
    List (DateTime × ℚ) :=
  let d := (priceDict bars).insertionSort entryLE
  d.drop (d.length - window)

/-- `CorrelationAnalyzer.compute_correlation_matrix`
(src/analytics/correlation.py, lines 185-234), up to the columns handed to
`df.corr()`: `none` is the `return None` of lines 204 and 225. -/
def compute_correlation_matrix_columns
    (data : List (String × List (DateTime × ℚ))) (window : Nat) :
    Option (List (String × List (DateTime × ℚ))) :=
  let price_data := data.filter (fun p => decide (window ≤ p.2.length))
  if price_data.length < 2 then none
  else
    let df_dict := price_data.map (fun p => (p.1, symbolColumn p.2 window))
    if df_dict = [] then none
    else some df_dict

/-- Modelled from the spec (§4.4.4): "given N symbols, compute pairwise
correlation over the intersection of all symbols' available timestamps,
dropping any symbol with insufficient data; requires at least two qualifying
symbols."  Each qualifying symbol's column holds its closes at exactly the
timestamps available for every qualifying symbol.  Stated from the spec's
words, for comparison with the code's columns. -/
def spec_correlation_columns
    (data : List (String × List (DateTime × ℚ))) (window : Nat) :
    Option (List (String × List (DateTime × ℚ))) :=
  let qualifying := data.filter (fun p => decide (window ≤ p.2.length))
  if qualifying.length < 2 then none
  else some (qualifying.map (fun p => (p.1,
    p.2.filter (fun b =>
      qualifying.all (fun q => decide (b.1 ∈ q.2.map Prod.fst))))))

/-- **C10.** At a concrete two-symbol input the code's columns are not
aligned on the intersection of the symbols' timestamps: symbol A's column
covers 12:02 and 12:03 while symbol B's covers 12:03 and 12:04 — 12:04 lies
outside the intersection — whereas the spec's intersection alignment puts
both columns at 12:02 and 12:03.  The positional pairing handed to
`df.corr()` therefore correlates rows bearing different timestamps. -/
theorem correlation_matrix_misaligned :
    compute_correlation_matrix_columns
      [("A", [(⟨0, 12, 1, 0, 0⟩, 1), (⟨0, 12, 2, 0, 0⟩, 2),
              (⟨0, 12, 3, 0, 0⟩, 3)]),
       ("B", [(⟨0, 12, 2, 0, 0⟩, 10), (⟨0, 12, 3, 0, 0⟩, 11),
              (⟨0, 12, 4, 0, 0⟩, 12)])] 2 =
      some [("A", [(⟨0, 12, 2, 0, 0⟩, 2), (⟨0, 12, 3, 0, 0⟩, 3)]),
            ("B", [(⟨0, 12, 3, 0, 0⟩, 11), (⟨0, 12, 4, 0, 0⟩, 12)])] ∧
    spec_correlation_columns
      [("A", [(⟨0, 12, 1, 0, 0⟩, 1), (⟨0, 12, 2, 0, 0⟩, 2),
              (⟨0, 12, 3, 0, 0⟩, 3)]),
       ("B", [(⟨0, 12, 2, 0, 0⟩, 10), (⟨0, 12, 3, 0, 0⟩, 11),
              (⟨0, 12, 4, 0, 0⟩, 12)])] 2 =
      some [("A", [(⟨0, 12, 2, 0, 0⟩, 2), (⟨0, 12, 3, 0, 0⟩, 3)]),
            ("B", [(⟨0, 12, 2, 0, 0⟩, 10), (⟨0, 12, 3, 0, 0⟩, 11)])] ∧
    compute_correlation_matrix_columns
      [("A", [(⟨0, 12, 1, 0, 0⟩, 1), (⟨0, 12, 2, 0, 0⟩, 2),
              (⟨0, 12, 3, 0, 0⟩, 3)]),
       ("B", [(⟨0, 12, 2, 0, 0⟩, 10), (⟨0, 12, 3, 0, 0⟩, 11),
              (⟨0, 12, 4, 0, 0⟩, 12)])] 2 ≠
    spec_correlation_columns
      [("A", [(⟨0, 12, 1, 0, 0⟩, 1), (⟨0, 12, 2, 0, 0⟩, 2),
              (⟨0, 12, 3, 0, 0⟩, 3)]),
       ("B", [(⟨0, 12, 2, 0, 0⟩, 10), (⟨0, 12, 3, 0, 0⟩, 11),
              (⟨0, 12, 4, 0, 0⟩, 12)])] 2 := by
  refine ⟨by decide, by decide, by decide⟩
